import Mathlib

/-!
Verification development for `format_bib.py`, a bibliography reformatter.

The Python source is shallowly embedded: pure string helpers become Lean
functions on `String` / `List Char`; the driver's two passes become explicit
state-passing functions; the unbounded `while` collision-escalation loop is
embedded with an explicit fuel parameter (returning `none` when the fuel runs
out, so that non-termination of the loop is expressible as `none` for every
fuel).

Modelling notes, recorded once here:
* Python's `str.lower` / `str.upper` are modelled by ASCII case mapping
  (`Char.toLower` / `Char.toUpper`); every title, author and key the program
  manipulates is treated at ASCII-casing fidelity.
* Python's whitespace class (shared by `str.strip`, `str.split` and the regex
  class used in `re.sub` / `re.split`) is the Unicode whitespace set, encoded
  exactly in `isPyWS`.
* The regex digit class used by `re.fullmatch` on the year is the Unicode
  decimal-digit (Nd) set, encoded exactly in `ndRanges` / `isPyDigit`.
* The spaCy part-of-speech collaborator is external to the repository; its
  failure path (`except Exception: pass`) is in the source, and it is modelled
  as unavailable, leaving the filtered token list unchanged (spec section 4.4
  step 3 and section 7, CollaboratorUnavailable).
-/

namespace FormatBib

/-- Unicode whitespace, exactly the set matched by Python's `str.isspace`,
`str.strip`, `str.split` and the regex class for whitespace. -/
def isPyWS (c : Char) : Bool :=
  let n := c.toNat
  (0x9 ≤ n && n ≤ 0xD) || (0x1C ≤ n && n ≤ 0x20) || n == 0x85 || n == 0xA0 ||
    n == 0x1680 || (0x2000 ≤ n && n ≤ 0x200A) || n == 0x2028 || n == 0x2029 ||
    n == 0x202F || n == 0x205F || n == 0x3000

/-- Unicode decimal digit (category Nd) ranges, exactly the set matched by
Python's regex digit class on `str` patterns. -/
def ndRanges : List (Nat × Nat) :=
  [(0x30, 0x39), (0x660, 0x669), (0x6F0, 0x6F9), (0x7C0, 0x7C9),
   (0x966, 0x96F), (0x9E6, 0x9EF), (0xA66, 0xA6F), (0xAE6, 0xAEF),
   (0xB66, 0xB6F), (0xBE6, 0xBEF), (0xC66, 0xC6F), (0xCE6, 0xCEF),
   (0xD66, 0xD6F), (0xDE6, 0xDEF), (0xE50, 0xE59), (0xED0, 0xED9),
   (0xF20, 0xF29), (0x1040, 0x1049), (0x1090, 0x1099), (0x17E0, 0x17E9),
   (0x1810, 0x1819), (0x1946, 0x194F), (0x19D0, 0x19D9), (0x1A80, 0x1A89),
   (0x1A90, 0x1A99), (0x1B50, 0x1B59), (0x1BB0, 0x1BB9), (0x1C40, 0x1C49),
   (0x1C50, 0x1C59), (0xA620, 0xA629), (0xA8D0, 0xA8D9), (0xA900, 0xA909),
   (0xA9D0, 0xA9D9), (0xA9F0, 0xA9F9), (0xAA50, 0xAA59), (0xABF0, 0xABF9),
   (0xFF10, 0xFF19), (0x104A0, 0x104A9), (0x10D30, 0x10D39),
   (0x11066, 0x1106F), (0x110F0, 0x110F9), (0x11136, 0x1113F),
   (0x111D0, 0x111D9), (0x112F0, 0x112F9), (0x11450, 0x11459),
   (0x114D0, 0x114D9), (0x11650, 0x11659), (0x116C0, 0x116C9),
   (0x11730, 0x11739), (0x118E0, 0x118E9), (0x11950, 0x11959),
   (0x11C50, 0x11C59), (0x11D50, 0x11D59), (0x11DA0, 0x11DA9),
   (0x16A60, 0x16A69), (0x16AC0, 0x16AC9), (0x16B50, 0x16B59),
   (0x1D7CE, 0x1D7FF), (0x1E140, 0x1E149), (0x1E2F0, 0x1E2F9),
   (0x1E950, 0x1E959), (0x1FBF0, 0x1FBF9)]

/-- Digit test used by the year regex `re.fullmatch` on four digit characters. -/
def isPyDigit (c : Char) : Bool :=
  ndRanges.any (fun p => p.1 ≤ c.toNat && c.toNat ≤ p.2)

/-- ASCII-fidelity model of Python's `str.lower`. -/
def pyLower (s : String) : String :=
  String.mk (s.data.map Char.toLower)

/-- ASCII-fidelity model of Python's `str.upper`. -/
def pyUpper (s : String) : String :=
  String.mk (s.data.map Char.toUpper)

/-- Model of Python's `str.strip` on a character list: drop leading and
trailing whitespace. -/
def pyStripL (l : List Char) : List Char :=
  ((l.dropWhile isPyWS).reverse.dropWhile isPyWS).reverse

/-- Model of Python's `str.strip`. -/
def pyStrip (s : String) : String :=
  String.mk (pyStripL s.data)

/-- Model of the regex substitution collapsing every maximal whitespace run to
a single space (the `Bool` argument records whether the previous character was
part of a whitespace run). -/
def collapseAux : Bool → List Char → List Char
  | _, [] => []
  | prevWS, c :: rest =>
    if isPyWS c then
      if prevWS then collapseAux true rest
      else ' ' :: collapseAux true rest
    else c :: collapseAux false rest

/-- Collapse every maximal whitespace run to a single space. -/
def collapseWS (l : List Char) : List Char :=
  collapseAux false l

/-- The opening markup-grouping character of the source format. -/
def lbrace : Char := Char.ofNat 0x7B

/-- The closing markup-grouping character of the source format. -/
def rbrace : Char := Char.ofNat 0x7D

/-- Removal of every grouping character, modelling the two chained
`str.replace` calls of `clean_title_for_key`. -/
def removeBraces (l : List Char) : List Char :=
  l.filter (fun c => !(c == lbrace || c == rbrace))

/-- Shallow embedding of `clean_title_for_key`: remove every grouping
character, collapse whitespace runs to single spaces, strip the ends. -/
def clean_title_for_key (title : String) : String :=
  if title = "" then ""
  else String.mk (pyStripL (collapseWS (removeBraces title.data)))

/-- Model of Python's `str.split` with no separator: split on whitespace runs,
dropping empty pieces (the accumulator holds the current word reversed). -/
def splitWSAux : List Char → List Char → List (List Char)
  | acc, [] => if acc.isEmpty then [] else [acc.reverse]
  | acc, c :: rest =>
    if isPyWS c then
      if acc.isEmpty then splitWSAux [] rest
      else acc.reverse :: splitWSAux [] rest
    else splitWSAux (c :: acc) rest

/-- Whitespace split of a character list into words. -/
def splitWS (l : List Char) : List (List Char) :=
  splitWSAux [] l

/-- The characters of Python's `string.punctuation`, in order (apostrophe and
backtick written by code point). -/
def pyPunct : List Char :=
  ['!', '"', '#', '$', '%', '&', Char.ofNat 0x27, '(', ')', '*', '+', ',',
   '-', '.', '/', ':', ';', '<', '=', '>', '?', '@', '[', Char.ofNat 0x5C,
   ']', Char.ofNat 0x5E, '_', Char.ofNat 0x60, lbrace, '|', rbrace,
   Char.ofNat 0x7E]

/-- Punctuation test for the tokenizing substitution in
`extract_title_abbreviation`. -/
def isPyPunct (c : Char) : Bool :=
  pyPunct.contains c

/-- The fixed stop-word set `STOP_WORDS` of the source. -/
def STOP_WORDS : List String :=
  ["a", "an", "the", "and", "or", "but", "in", "on", "at", "to", "for",
   "of", "with", "by", "is", "are", "was", "were"]

/-- Steps 1 and 2 of `extract_title_abbreviation`: lowercase, replace every
punctuation character with a space, split on whitespace, then drop stop words
and words of length at most 1.  The spaCy refinement of step 3 is an external
collaborator modelled as unavailable (its exception is absorbed by the source,
leaving this list unchanged). -/
def contentWordsOf (title : String) : List String :=
  let clean := (pyLower title).data.map (fun c => if isPyPunct c then ' ' else c)
  let words := (splitWS clean).map String.mk
  words.filter (fun w => !STOP_WORDS.contains w && w.length > 1)

/-- Step 4 of `extract_title_abbreviation`: the Python slice
`content_words[n-2:n]` (the program only ever calls this with `n` a power of
two, at least 2). -/
def selectWindow (content : List String) (n : Nat) : List String :=
  (content.drop (n - 2)).take (n - (n - 2))

/-- Step 5 of `extract_title_abbreviation`: a word of length at most 3, or one
that is already all-uppercase, is rendered fully uppercased; otherwise only
its first character, lowercased.  (The empty case is unreachable for the
filtered words, which have length greater than 1.) -/
def renderToken (w : String) : String :=
  if w.length ≤ 3 || pyUpper w == w then pyUpper w
  else
    match w.data with
    | [] => ""
    | c :: _ => String.mk [c.toLower]

/-- Shallow embedding of `extract_title_abbreviation title n` (with the
part-of-speech collaborator unavailable, see the header note): tokenize and
filter the title, select the window `[n-2:n]`, render each selected token,
concatenate, and truncate to at most 3 characters. -/
def extract_title_abbreviation (title : String) (n : Nat) : String :=
  if title = "" then ""
  else
    let content := contentWordsOf title
    if content.isEmpty then ""
    else (String.join ((selectWindow content n).map renderToken)).take 3

/-- Test for the author-separator regex match beginning exactly here: after a
maximal whitespace run, the letters `and` (case-insensitively), followed by at
least one whitespace character. -/
def startsAndWS : List Char → Bool
  | a :: n :: d :: w :: _ =>
    a.toLower == 'a' && n.toLower == 'n' && d.toLower == 'd' && isPyWS w
  | _ => false

/-- Does the author-separator regex (whitespace, `and`, whitespace) match
starting at the head of this list?  Its first piece must consume at least one
whitespace character; since neither `a` nor `A` is whitespace, a match exists
here exactly when the head is whitespace and the maximal run is followed by
`and` and further whitespace. -/
def andSepAt : List Char → Bool
  | [] => false
  | c :: rest => isPyWS c && startsAndWS (rest.dropWhile isPyWS)

/-- The prefix before the leftmost author-separator match, i.e. the first
component of the regex split in `extract_lastname`. -/
def takeUntilSep : List Char → List Char
  | [] => []
  | c :: rest => if andSepAt (c :: rest) then [] else c :: takeUntilSep rest

/-- ASCII letter test for the final filtering substitution of
`extract_lastname`. -/
def isAsciiAlpha (c : Char) : Bool :=
  ('a' ≤ c && c ≤ 'z') || ('A' ≤ c && c ≤ 'Z')

/-- Shallow embedding of `extract_lastname`: take the first author (prefix
before the first case-insensitive ` and ` separator, stripped); take the text
before the first comma if there is one, else the last whitespace-separated
word (falling back to `unknown` when there is none); keep only ASCII letters,
lowercase; fall back to `unknown` when nothing remains. -/
def extract_lastname (author : String) : String :=
  if author = "" then "unknown"
  else
    let first := pyStripL (takeUntilSep author.data)
    let last : List Char :=
      if first.contains ',' then first.takeWhile (fun c => !(c == ','))
      else
        match (splitWS first).getLast? with
        | some w => w
        | none => "unknown".data
    let cleaned := (last.filter isAsciiAlpha).map Char.toLower
    if cleaned.isEmpty then "unknown" else String.mk cleaned

/-- One parsed field of a record: a name and a value, both case-preserving. -/
structure Field where
  key : String
  value : String
deriving DecidableEq, Repr

/-- One bibliographic record block: entry type, original identifier, source
line, and the ordered field list. -/
structure EntryB where
  entry_type : String
  key : String
  start_line : Nat
  fields : List Field
deriving DecidableEq, Repr

/-- One parsed block: a record, a duplicate-identifier signal block produced
by the parsing collaborator (carrying the offending identifier, its zero-based
line, and its raw text), or any other block carrying raw text. -/
inductive Block where
  | entry (e : EntryB)
  | dupKey (key : String) (start_line : Nat) (raw : Option String)
  | other (raw : Option String) (start_line : Nat)
deriving DecidableEq, Repr

/-- Model of the parser's `fields_dict` lookup: a dict comprehension over the
field list, so a later field with the same (exact) name shadows an earlier
one. -/
def fields_dict_get (e : EntryB) (k : String) : Option Field :=
  (e.fields.filter (fun f => f.key == k)).getLast?

/-- Model of the Python membership test `k in entry.fields_dict`. -/
def hasField (e : EntryB) (k : String) : Bool :=
  (fields_dict_get e k).isSome

/-- Shallow embedding of `get_field` at its only used default, the empty
string. -/
def get_field (e : EntryB) (k : String) : String :=
  match fields_dict_get e k with
  | some f => f.value
  | none => ""

/-- The canonical title the driver computes for a record:
`clean_title_for_key(get_field(block, "title", "").strip())`. -/
def canonOf (e : EntryB) : String :=
  clean_title_for_key (pyStrip (get_field e "title"))

/-- The lowercased canonical title, the deduplication key of Pass 1. -/
def canonLower (e : EntryB) : String :=
  pyLower (canonOf e)

/-- The driver's author lookup: the exact names `author`, then `AUTHOR`, then
the literal fallback `unknown`. -/
def authorOf (e : EntryB) : String :=
  if hasField e "author" then get_field e "author"
  else if hasField e "AUTHOR" then get_field e "AUTHOR"
  else "unknown"

/-- The driver's year lookup before the digit check: the exact names `year`
then `YEAR`, each stripped, with the fallback `0000` when neither name is
present. -/
def yearRawOf (e : EntryB) : String :=
  if hasField e "year" then pyStrip (get_field e "year")
  else if hasField e "YEAR" then pyStrip (get_field e "YEAR")
  else "0000"

/-- The year regex check: a full match of exactly four digit-class
characters. -/
def fullmatch4 (s : String) : Bool :=
  s.length == 4 && s.data.all isPyDigit

/-- The year token the driver uses in key derivation. -/
def yearTokenOf (e : EntryB) : String :=
  if fullmatch4 (yearRawOf e) then yearRawOf e else "0000"

/-- The base key candidate, `extract_lastname(author) + year`. -/
def baseKeyOf (e : EntryB) : String :=
  extract_lastname (authorOf e) ++ yearTokenOf e

/-- A provenance record appended to the usage index: canonical title, original
identifier, zero-based source line. -/
structure Info where
  title : String
  orig_key : String
  line : Nat
deriving DecidableEq, Repr

/-- The key-usage index `key_usage`, an insertion-ordered association list. -/
abbrev Usage := List (String × List Info)

/-- Membership test `key in key_usage`. -/
def usageContains (u : Usage) (k : String) : Bool :=
  u.any (fun p => p.1 == k)

/-- The `key_usage.setdefault(key, []).append(info)` operation. -/
def usagePush (u : Usage) (k : String) (i : Info) : Usage :=
  if usageContains u k then
    u.map (fun p => if p.1 == k then (p.1, p.2 ++ [i]) else p)
  else u ++ [(k, [i])]

/-- Fuel-indexed embedding of the collision-escalation `while` loop: while the
candidate is in the usage index, append `extract_title_abbreviation title n`
and double `n`; `none` means the fuel was exhausted with the candidate still
colliding. -/
def escalate (u : Usage) (title : String) : Nat → String → Nat → Option String
  | 0, key, _n => if usageContains u key then none else some key
  | fuel + 1, key, n =>
    if usageContains u key then
      escalate u title fuel (key ++ extract_title_abbreviation title n) (2 * n)
    else some key

/-- The non-title fields, kept in original order for the indented lines. -/
def otherFields (e : EntryB) : List Field :=
  e.fields.filter (fun f => !(f.key == "title"))

/-- The opening line of a formatted entry: entry type, derived key and the
title field together. -/
def openingLine (e : EntryB) (key title : String) : String :=
  "@" ++ e.entry_type ++ "\x7b" ++ key ++ ", title = \x7b" ++ title ++ "\x7d,"

/-- One indented field line of a formatted entry. -/
def fieldLineOf (f : Field) : String :=
  "  " ++ f.key ++ " = \x7b" ++ f.value ++ "\x7d,"

/-- Model of `str.rstrip(",")`: remove every trailing comma. -/
def rstripCommas (s : String) : String :=
  String.mk ((s.data.reverse.dropWhile (fun c => c == ',')).reverse)

/-- Apply `rstripCommas` to the last line of a list. -/
def rstripLast : List String → List String
  | [] => []
  | [a] => [rstripCommas a]
  | a :: b :: rest => a :: rstripLast (b :: rest)

/-- The line list of a formatted entry before the closing delimiter: the
opening line, one line per non-title field, and — only when the list has more
than one line — the trailing commas stripped from the last line. -/
def fieldLines (e : EntryB) (key title : String) : List String :=
  let lines := openingLine e key title :: (otherFields e).map fieldLineOf
  if lines.length > 1 then rstripLast lines else lines

/-- The full replacement text of a kept record: the field lines and a closing
delimiter line, joined by line breaks. -/
def formatEntry (e : EntryB) (key title : String) : String :=
  String.intercalate "\n" (fieldLines e key title ++ [String.mk [rbrace]])

/-- The replacement index `entry_replacements`, keyed by source line. -/
abbrev Repl := List (Nat × String)

/-- Dict lookup in the replacement index. -/
def replLookup (r : Repl) (k : Nat) : Option String :=
  (r.find? (fun p => p.1 == k)).map (fun p => p.2)

/-- Dict assignment in the replacement index (overwrite in place, else append
preserving insertion order). -/
def replSet (r : Repl) (k : Nat) (v : String) : Repl :=
  if r.any (fun p => p.1 == k) then
    r.map (fun p => if p.1 == k then (p.1, v) else p)
  else r ++ [(k, v)]

/-- The driver's Pass-1 accumulation state: the seen-title set, the key-usage
index and the replacement index. -/
structure P1State where
  seen : List String
  usage : Usage
  repl : Repl
deriving DecidableEq, Repr

/-- The empty initial Pass-1 state. -/
def initState : P1State := ⟨[], [], []⟩

/-- Pass-1 treatment of one record: skip it entirely when its lowercased
canonical title was seen, otherwise mark the title seen, derive a key through
the escalation loop (propagating fuel exhaustion), register its provenance and
its formatted replacement. -/
def processEntry (fuel : Nat) (st : P1State) (e : EntryB) : Option P1State :=
  let title := canonOf e
  if pyLower title ∈ st.seen then some st
  else
    match escalate st.usage title fuel (baseKeyOf e) 2 with
    | none => none
    | some key =>
      some { seen := st.seen ++ [pyLower title]
             usage := usagePush st.usage key ⟨title, e.key, e.start_line⟩
             repl := replSet st.repl e.start_line (formatEntry e key title) }

/-- Pass 1 from an arbitrary starting state: records are processed in block
order, every non-record block is ignored. -/
def pass1Aux (fuel : Nat) : P1State → List Block → Option P1State
  | st, [] => some st
  | st, b :: bs =>
    match b with
    | .entry e =>
      match processEntry fuel st e with
      | none => none
      | some st' => pass1Aux fuel st' bs
    | _ => pass1Aux fuel st bs

/-- Pass 1 of the driver, from the empty state. -/
def pass1 (fuel : Nat) (blocks : List Block) : Option P1State :=
  pass1Aux fuel initState blocks

/-- The records of a block sequence, in order. -/
def entriesOf (blocks : List Block) : List EntryB :=
  blocks.filterMap (fun b => match b with | .entry e => some e | _ => none)

/-- Does this string end with a line break? -/
def endsWithNL (s : String) : Bool :=
  s.data.getLast? == some '\n'

/-- Pass-2 emission for a non-record block: its raw text, with a line break
appended when it lacks one; the placeholder branch of the source covers a
block without raw text. -/
def emitRaw : Option String → String
  | some r => r ++ (if endsWithNL r then "" else "\n")
  | none => "% [block preserved]\n"

/-- Pass-2 emission for one block: a registered replacement followed by a line
break, nothing for an unregistered (duplicate) record, and the raw text for
every non-record block. -/
def emitBlock (r : Repl) : Block → String
  | .entry e =>
    match replLookup r e.start_line with
    | some s => s ++ "\n"
    | none => ""
  | .dupKey _k _l raw => emitRaw raw
  | .other raw _l => emitRaw raw

/-- Pass 2 of the driver: the output file contents, the sequential writes
modelled as concatenation in block order. -/
def pass2 (r : Repl) : List Block → String
  | [] => ""
  | b :: bs => emitBlock r b ++ pass2 r bs

/-- The duplicate-identifier signal blocks of the parsed sequence, with their
identifiers and zero-based lines. -/
def duplicateBlocks (blocks : List Block) : List (String × Nat) :=
  blocks.filterMap (fun b =>
    match b with
    | .dupKey k l _ => some (k, l)
    | _ => none)

/-- The observable outcome of a completed run: either the fatal
duplicate-identifier report (each offender with its reported one-based line,
no output written) or the output file contents with the kept-record count. -/
inductive Outcome where
  | fatalDup (report : List (String × Nat))
  | ok (output : String) (keptCount : Nat)
deriving DecidableEq, Repr

/-- The process exit status of an outcome. -/
def exitCode : Outcome → Nat
  | .fatalDup _ => 1
  | .ok _ _ => 0

/-- The whole run over a parsed block sequence: the duplicate check runs
first, before Pass 1 and before the output file is opened; otherwise Pass 1
then Pass 2 (with `none` propagated when the escalation loop exhausts its
fuel). -/
def mainOutcome (fuel : Nat) (blocks : List Block) : Option Outcome :=
  let dups := duplicateBlocks blocks
  if dups.isEmpty then
    (pass1 fuel blocks).map (fun st => .ok (pass2 st.repl blocks) st.repl.length)
  else some (.fatalDup (dups.map (fun p => (p.1, p.2 + 1))))

/-- Divergence of the escalation loop: no amount of fuel makes it commit. -/
def escalateDiverges (u : Usage) (title key : String) (n : Nat) : Prop :=
  ∀ fuel, escalate u title fuel key n = none

/-- Divergence of Pass 1: no amount of fuel completes it. -/
def pass1Diverges (blocks : List Block) : Prop :=
  ∀ fuel, pass1 fuel blocks = none

/-- Claim-side definition, following the spec's words rather than the source:
a case-insensitive field-name lookup (later fields shadowing earlier ones,
like the source's dict), for comparison with the source's exact-name year
lookup. -/
def getFieldCI (e : EntryB) (k : String) : Option String :=
  ((e.fields.filter (fun f => pyLower f.key == pyLower k)).getLast?).map
    (fun f => f.value)

/-- The source's year lookup as an option (found value before stripping), used
to characterize `yearTokenOf`. -/
def yearLookupExact (e : EntryB) : Option String :=
  if hasField e "year" then some (get_field e "year")
  else if hasField e "YEAR" then some (get_field e "YEAR")
  else none

/-! Proof-infrastructure predicates for the title normalizer. -/

/-- No two adjacent characters are both whitespace. -/
def WSRel (a b : Char) : Prop :=
  ¬(isPyWS a = true ∧ isPyWS b = true)

/-- The head, when present, is not whitespace. -/
def headNotWS (l : List Char) : Prop :=
  ∀ c, l.head? = some c → isPyWS c = false

/-- The last character, when present, is not whitespace. -/
def lastNotWS (l : List Char) : Prop :=
  ∀ c, l.getLast? = some c → isPyWS c = false

/-! Concrete blocks and states used by witnesses and counterexamples. -/

/-- An article with title, author and year fields. -/
def wA : EntryB :=
  ⟨"article", "a1", 0,
   [⟨"title", "Deep Learning for X"⟩, ⟨"author", "Smith, J."⟩, ⟨"year", "2020"⟩]⟩

/-- A later article whose title differs from `wA` only in letter case. -/
def wB : EntryB :=
  ⟨"article", "b1", 5,
   [⟨"title", "deep LEARNING for X"⟩, ⟨"author", "Jones, A."⟩, ⟨"year", "2021"⟩]⟩

/-- A distinct-title article by the same surname and year as `wA`. -/
def wC : EntryB :=
  ⟨"article", "c1", 9,
   [⟨"title", "Deep Diving"⟩, ⟨"author", "Smith, A."⟩, ⟨"year", "2020"⟩]⟩

/-- A three-record input with an interleaved comment block. -/
def wBlocks : List Block :=
  [Block.entry wA, Block.other (some "% hi") 4, Block.entry wB, Block.entry wC]

/-- The Pass-1 state the driver reaches on `wBlocks`. -/
def stW : P1State :=
  ⟨["deep learning for x", "deep diving"],
   [("smith2020", [⟨"Deep Learning for X", "a1", 0⟩]),
    ("smith2020dd", [⟨"Deep Diving", "c1", 9⟩])],
   [(0, "@article\x7bsmith2020, title = \x7bDeep Learning for X\x7d,\n  author = \x7bSmith, J.\x7d,\n  year = \x7b2020\x7d\n\x7d"),
    (9, "@article\x7bsmith2020dd, title = \x7bDeep Diving\x7d,\n  author = \x7bSmith, A.\x7d,\n  year = \x7b2020\x7d\n\x7d")]⟩

/-- A record whose title consists only of stop words. -/
def cStop1 : EntryB :=
  ⟨"article", "s1", 0,
   [⟨"title", "The Of"⟩, ⟨"author", "Smith, John"⟩, ⟨"year", "2020"⟩]⟩

/-- A second stop-word-only title, distinct from the first, with the same
surname and year (so the base keys collide). -/
def cStop2 : EntryB :=
  ⟨"article", "s2", 4,
   [⟨"title", "Of The"⟩, ⟨"author", "Smith, Jane"⟩, ⟨"year", "2020"⟩]⟩

/-- The two-record input on which the escalation loop never commits. -/
def cStopBlocks : List Block :=
  [Block.entry cStop1, Block.entry cStop2]

/-- The Pass-1 state after the first stop-word-only record alone. -/
def stStop1 : P1State :=
  ⟨["the of"],
   [("smith2020", [⟨"The Of", "s1", 0⟩])],
   [(0, "@article\x7bsmith2020, title = \x7bThe Of\x7d,\n  author = \x7bSmith, John\x7d,\n  year = \x7b2020\x7d\n\x7d")]⟩

/-- The record of scenario E: a title of stop words and punctuation only. -/
def eScenE : EntryB :=
  ⟨"misc", "e1", 0, [⟨"title", "The Of And"⟩]⟩

/-- An eight-content-word token list (the content words of the title used in
the window counterexample). -/
def cxTokens : List String :=
  ["alpha", "bravo", "charlie", "delta", "echoes", "foxtrot", "golfing",
   "hotelier"]

/-- A record whose year field is spelled `Year`, found by a case-insensitive
lookup but by neither of the exact names the driver checks. -/
def eYearMixed : EntryB :=
  ⟨"article", "y1", 0, [⟨"title", "Some Title"⟩, ⟨"Year", "2020"⟩]⟩

/-- An input carrying two duplicate-identifier signal blocks. -/
def dupBlocksEx : List Block :=
  [Block.dupKey "abc123" 7 (some "@misc\x7babc123,\x7d"), Block.entry wA,
   Block.dupKey "abc123" 12 none]

/-- A record whose only field is its title. -/
def eTitleOnly : EntryB :=
  ⟨"article", "t1", 3, [⟨"title", "T"⟩]⟩

/-- A record with no title field at all. -/
def eNoT1 : EntryB :=
  ⟨"misc", "n1", 0, [⟨"author", "Smith, J."⟩]⟩

/-- A record whose title is all markup, normalizing to the empty string. -/
def eNoT2 : EntryB :=
  ⟨"misc", "n2", 4, [⟨"title", "\x7b\x7d"⟩]⟩

/-- The two title-less records as an input sequence. -/
def noTBlocks : List Block :=
  [Block.entry eNoT1, Block.entry eNoT2]

/-- The Pass-1 state the driver reaches on `noTBlocks`. -/
def stNoT : P1State :=
  ⟨[""],
   [("smith0000", [⟨"", "n1", 0⟩])],
   [(0, "@misc\x7bsmith0000, title = \x7b\x7d,\n  author = \x7bSmith, J.\x7d\n\x7d")]⟩

/-! Lemmas about the title normalizer. -/

theorem mem_collapseAux :
    ∀ (l : List Char) (b : Bool) (c : Char), c ∈ collapseAux b l →
      c = ' ' ∨ (c ∈ l ∧ isPyWS c = false) := by
  intro l
  induction l with
  | nil => intro b c h; simp [collapseAux] at h
  | cons d rest ih =>
    intro b c h
    by_cases hw : isPyWS d = true
    · by_cases hb : b = true
      · rw [collapseAux, if_pos hw, if_pos hb] at h
        rcases ih true c h with h1 | h2
        · exact Or.inl h1
        · exact Or.inr ⟨List.mem_cons_of_mem d h2.1, h2.2⟩
      · rw [collapseAux, if_pos hw, if_neg hb] at h
        rcases List.mem_cons.mp h with h1 | h2
        · exact Or.inl h1
        · rcases ih true c h2 with h3 | h4
          · exact Or.inl h3
          · exact Or.inr ⟨List.mem_cons_of_mem d h4.1, h4.2⟩
    · rw [collapseAux, if_neg hw] at h
      rcases List.mem_cons.mp h with h1 | h2
      · subst h1
        exact Or.inr ⟨List.mem_cons_self c rest, Bool.eq_false_iff.mpr hw⟩
      · rcases ih false c h2 with h3 | h4
        · exact Or.inl h3
        · exact Or.inr ⟨List.mem_cons_of_mem d h4.1, h4.2⟩

theorem chain'_collapseAux :
    ∀ (l : List Char) (b : Bool),
      List.Chain' WSRel (collapseAux b l) ∧
      (b = true → headNotWS (collapseAux b l)) := by
  intro l
  induction l with
  | nil =>
    intro b
    refine ⟨by simp [collapseAux], fun _ c h => by simp [collapseAux] at h⟩
  | cons d rest ih =>
    intro b
    by_cases hw : isPyWS d = true
    · by_cases hb : b = true
      · rw [collapseAux, if_pos hw, if_pos hb]
        exact ⟨(ih true).1, fun _ => (ih true).2 rfl⟩
      · rw [collapseAux, if_pos hw, if_neg hb]
        constructor
        · rw [List.chain'_cons']
          refine ⟨fun y hy => ?_, (ih true).1⟩
          intro hcon
          have := (ih true).2 rfl y (Option.mem_def.mp hy)
          rw [this] at hcon
          exact Bool.false_ne_true hcon.2
        · intro hbt; exact absurd hbt hb
    · rw [collapseAux, if_neg hw]
      constructor
      · rw [List.chain'_cons']
        refine ⟨fun y _ => ?_, (ih false).1⟩
        intro hcon
        exact hw hcon.1
      · intro _ c h
        have hcd : d = c := by simpa using h
        rw [← hcd]
        exact Bool.eq_false_iff.mpr hw

theorem allSpace_collapseAux (l : List Char) (b : Bool) (c : Char)
    (h : c ∈ collapseAux b l) (hws : isPyWS c = true) : c = ' ' := by
  rcases mem_collapseAux l b c h with h1 | h2
  · exact h1
  · rw [h2.2] at hws; exact absurd hws Bool.false_ne_true

theorem head_dropWhile_false (p : Char → Bool) :
    ∀ (l : List Char) (c : Char), (List.dropWhile p l).head? = some c →
      p c = false := by
  intro l
  induction l with
  | nil => intro c h; simp at h
  | cons d rest ih =>
    intro c h
    rw [List.dropWhile_cons] at h
    by_cases hp : p d = true
    · rw [if_pos hp] at h; exact ih c h
    · rw [if_neg hp] at h
      have hcd : d = c := by simpa using h
      rw [← hcd]
      exact Bool.eq_false_iff.mpr hp

theorem getLast?_dropWhile (p : Char → Bool) (l : List Char) (c : Char)
    (h : (List.dropWhile p l).getLast? = some c) : l.getLast? = some c := by
  rcases (List.dropWhile_suffix p : List.dropWhile p l <:+ l) with ⟨t, ht⟩
  rw [← ht, List.getLast?_append, h]
  rfl

theorem chain'_dropWhile (p : Char → Bool) :
    ∀ (l : List Char), List.Chain' WSRel l →
      List.Chain' WSRel (List.dropWhile p l) := by
  intro l
  induction l with
  | nil => intro h; simp
  | cons d rest ih =>
    intro h
    rw [List.dropWhile_cons]
    by_cases hp : p d = true
    · rw [if_pos hp]
      exact ih (List.chain'_cons'.mp h).2
    · rw [if_neg hp]; exact h

theorem chain'_wsrel_reverse (l : List Char) (h : List.Chain' WSRel l) :
    List.Chain' WSRel l.reverse := by
  rw [List.chain'_reverse]
  exact h.imp (fun a b hab => fun hc => hab ⟨hc.2, hc.1⟩)

theorem pyStripL_sublist (l : List Char) : (pyStripL l).Sublist l := by
  unfold pyStripL
  have h1 : (List.dropWhile isPyWS ((List.dropWhile isPyWS l).reverse)).Sublist
      ((List.dropWhile isPyWS l).reverse) := List.dropWhile_sublist _
  have h2 := h1.reverse
  rw [List.reverse_reverse] at h2
  exact h2.trans (List.dropWhile_sublist _)

theorem mem_pyStripL (l : List Char) (c : Char) (h : c ∈ pyStripL l) : c ∈ l :=
  List.Sublist.mem h (pyStripL_sublist l)

theorem headNotWS_pyStripL (l : List Char) : headNotWS (pyStripL l) := by
  intro c h
  unfold pyStripL at h
  rw [List.head?_reverse] at h
  have h2 := getLast?_dropWhile isPyWS _ c h
  rw [List.getLast?_reverse] at h2
  exact head_dropWhile_false isPyWS _ c h2

theorem lastNotWS_pyStripL (l : List Char) : lastNotWS (pyStripL l) := by
  intro c h
  unfold pyStripL at h
  rw [List.getLast?_reverse] at h
  exact head_dropWhile_false isPyWS _ c h

theorem chain'_pyStripL (l : List Char) (h : List.Chain' WSRel l) :
    List.Chain' WSRel (pyStripL l) := by
  unfold pyStripL
  exact chain'_wsrel_reverse _ (chain'_dropWhile _ _ (chain'_wsrel_reverse _
    (chain'_dropWhile _ _ h)))

theorem dropWhile_eq_self_of_headNot (p : Char → Bool) (l : List Char)
    (h : ∀ c, l.head? = some c → p c = false) : List.dropWhile p l = l := by
  cases l with
  | nil => rfl
  | cons d rest => rw [List.dropWhile_cons, h d rfl]; simp

theorem pyStripL_eq_self (l : List Char) (h1 : headNotWS l)
    (h2 : lastNotWS l) : pyStripL l = l := by
  unfold pyStripL
  rw [dropWhile_eq_self_of_headNot _ _ h1]
  rw [dropWhile_eq_self_of_headNot _ _
    (fun c hc => h2 c (by rw [← List.head?_reverse]; exact hc))]
  exact List.reverse_reverse l

theorem collapseAux_true_eq_false (l : List Char) (h : headNotWS l) :
    collapseAux true l = collapseAux false l := by
  cases l with
  | nil => rfl
  | cons d rest =>
    have hd : isPyWS d = false := h d rfl
    rw [collapseAux, collapseAux, if_neg (by rw [hd]; exact Bool.false_ne_true),
      if_neg (by rw [hd]; exact Bool.false_ne_true)]

theorem collapseAux_eq_self :
    ∀ (l : List Char), List.Chain' WSRel l →
      (∀ c ∈ l, isPyWS c = true → c = ' ') → collapseAux false l = l := by
  intro l
  induction l with
  | nil => intro _ _; rfl
  | cons d rest ih =>
    intro hch hall
    by_cases hw : isPyWS d = true
    · have hd : d = ' ' := hall d (List.mem_cons_self d rest) hw
      rw [collapseAux, if_pos hw, if_neg Bool.false_ne_true]
      have hhead : headNotWS rest := by
        intro c hc
        have := (List.chain'_cons'.mp hch).1 c (Option.mem_def.mpr hc)
        by_contra hcon
        exact this ⟨hw, Bool.not_eq_false _ |>.mp hcon⟩
      rw [collapseAux_true_eq_false rest hhead,
        ih (List.chain'_cons'.mp hch).2
          (fun c hc hwc => hall c (List.mem_cons_of_mem d hc) hwc), hd]
    · rw [collapseAux, if_neg hw,
        ih (List.chain'_cons'.mp hch).2
          (fun c hc hwc => hall c (List.mem_cons_of_mem d hc) hwc)]

theorem removeBraces_eq_self (l : List Char)
    (h : ∀ c ∈ l, (c == lbrace || c == rbrace) = false) :
    removeBraces l = l := by
  unfold removeBraces
  rw [List.filter_eq_self]
  intro a ha
  rw [h a ha]
  rfl

/-- C8: for every input string, the normalizer's output contains no occurrence
of the grouping characters, and the normalizer is idempotent. -/
theorem clean_title_no_braces_and_idempotent (x : String) :
    (lbrace ∉ (clean_title_for_key x).data ∧
      rbrace ∉ (clean_title_for_key x).data) ∧
    clean_title_for_key (clean_title_for_key x) = clean_title_for_key x := by
  by_cases hx : x = ""
  · subst hx
    refine ⟨⟨?_, ?_⟩, ?_⟩ <;> simp [clean_title_for_key]
  · have hcx : clean_title_for_key x =
        String.mk (pyStripL (collapseWS (removeBraces x.data))) := by
      rw [clean_title_for_key, if_neg hx]
    set P := pyStripL (collapseWS (removeBraces x.data)) with hPdef
    have hmem : ∀ c ∈ P, c ∈ collapseAux false (removeBraces x.data) :=
      fun c hc => mem_pyStripL _ c hc
    have hnb : ∀ c ∈ P, (c == lbrace || c == rbrace) = false := by
      intro c hc
      rcases mem_collapseAux _ false c (hmem c hc) with h1 | h2
      · subst h1; decide
      · have hf := List.mem_filter.mp h2.1
        simpa using hf.2
    have hnbl : lbrace ∉ P := by
      intro hc
      have := hnb lbrace hc
      simp at this
    have hnbr : rbrace ∉ P := by
      intro hc
      have := hnb rbrace hc
      simp at this
    have hchain : List.Chain' WSRel P :=
      chain'_pyStripL _ (chain'_collapseAux (removeBraces x.data) false).1
    have hall : ∀ c ∈ P, isPyWS c = true → c = ' ' :=
      fun c hc hw => allSpace_collapseAux _ false c (hmem c hc) hw
    have hfix : String.mk (pyStripL (collapseWS (removeBraces P))) =
        String.mk P := by
      rw [removeBraces_eq_self P hnb,
        show collapseWS P = P from collapseAux_eq_self P hchain hall,
        pyStripL_eq_self P (headNotWS_pyStripL _) (lastNotWS_pyStripL _)]
    refine ⟨⟨?_, ?_⟩, ?_⟩
    · rw [hcx]; exact hnbl
    · rw [hcx]; exact hnbr
    · rw [hcx]
      by_cases hP0 : String.mk P = ""
      · rw [hP0]; simp [clean_title_for_key]
      · rw [clean_title_for_key, if_neg hP0]
        exact hfix

/-- Witness for the normalizer claim at a concrete markup-laden title. -/
theorem clean_title_no_braces_and_idempotent_witness :
    lbrace ∉ (clean_title_for_key "\x7bA\x7d  Deep  Title").data ∧
    clean_title_for_key (clean_title_for_key "\x7bA\x7d  Deep  Title") =
      clean_title_for_key "\x7bA\x7d  Deep  Title" ∧
    clean_title_for_key "\x7bA\x7d  Deep  Title" = "A Deep Title" :=
  ⟨(clean_title_no_braces_and_idempotent "\x7bA\x7d  Deep  Title").1.1,
   (clean_title_no_braces_and_idempotent "\x7bA\x7d  Deep  Title").2,
   by decide⟩

/-! Lemmas about the abbreviation window and its escalation walk. -/

/-- C4 counterexample: with eight content words, the window selected at
escalation step `n = 8` is tokens 6 and 7, not the tokens 4 and 5 that are
adjacent to the `n = 4` window — consecutive doubling steps skip tokens. -/
theorem selectWindow_not_adjacent_cx :
    selectWindow cxTokens 4 = ["charlie", "delta"] ∧
    selectWindow cxTokens 8 ≠ (cxTokens.drop 4).take 2 ∧
    selectWindow cxTokens 8 = ["golfing", "hotelier"] ∧
    contentWordsOf
        "alpha bravo charlie delta echoes foxtrot golfing hotelier" =
      cxTokens ∧
    extract_title_abbreviation
        "alpha bravo charlie delta echoes foxtrot golfing hotelier" 8 =
      "gh" := by
  refine ⟨by decide, by decide, by decide, by decide, by decide⟩

/-- C4 amended: for every escalation value `n ≥ 2` the selected slice is
`[n-2 : n]`, a window of at most two tokens; the window of the next escalation
step `2n` is drawn entirely from the tokens strictly after position `n` (the
end of the current window), so successive windows move right without
overlapping — but, beyond the first doubling, they are not adjacent. -/
theorem selectWindow_escalation (l : List String) (n : Nat) (h : 2 ≤ n) :
    (selectWindow l n).length ≤ 2 ∧
    selectWindow l n = (l.drop (n - 2)).take 2 ∧
    selectWindow l (2 * n) = ((l.drop n).drop (n - 2)).take 2 := by
  have h2 : n - (n - 2) = 2 := by omega
  have h3 : 2 * n - (2 * n - 2) = 2 := by omega
  have h4 : 2 * n - 2 = n + (n - 2) := by omega
  refine ⟨?_, ?_, ?_⟩
  · rw [selectWindow, h2]
    have := List.length_take 2 (l.drop (n - 2))
    omega
  · rw [selectWindow, h2]
  · rw [selectWindow, h3, h4, List.drop_drop]

/-- Witness for the amended window claim at the first escalation step. -/
theorem selectWindow_escalation_witness :
    (selectWindow cxTokens 2).length ≤ 2 ∧
    selectWindow cxTokens 2 = (cxTokens.drop 0).take 2 ∧
    selectWindow cxTokens (2 * 2) = ((cxTokens.drop 2).drop 0).take 2 :=
  selectWindow_escalation cxTokens 2 (by decide)

/-! Lemmas about year extraction. -/

/-- C5 counterexample: a record whose year field is spelled `Year` is found by
the claim's case-insensitive lookup with a four-ASCII-digit value, yet the
driver's year token is the fallback `0000`, not the field value. -/
theorem year_lookup_not_case_insensitive_cx :
    getFieldCI eYearMixed "year" = some "2020" ∧
    fullmatch4 "2020" = true ∧
    yearTokenOf eYearMixed = "0000" ∧
    yearTokenOf eYearMixed ≠ "2020" := by
  refine ⟨by decide, by decide, by decide, by decide⟩

/-- C5 amended: the year token equals the stripped field value exactly when
the field is found under one of the exact names `year` or `YEAR` (lowercase
checked first) and the stripped value fully matches four digit-class
characters; in every other case — both names absent (a mixed-case name such
as `Year` is not consulted), or a value that does not fully match four
digit-class characters — the token is `0000`. -/
theorem yearToken_exact_characterization (e : EntryB) :
    yearTokenOf e =
      match yearLookupExact e with
      | none => "0000"
      | some v => if fullmatch4 (pyStrip v) then pyStrip v else "0000" := by
  by_cases h1 : hasField e "year" = true
  · have hr : yearRawOf e = pyStrip (get_field e "year") := by
      rw [yearRawOf, if_pos h1]
    have hl : yearLookupExact e = some (get_field e "year") := by
      rw [yearLookupExact, if_pos h1]
    rw [yearTokenOf, hr, hl]
  · by_cases h2 : hasField e "YEAR" = true
    · have hr : yearRawOf e = pyStrip (get_field e "YEAR") := by
        rw [yearRawOf, if_neg h1, if_pos h2]
      have hl : yearLookupExact e = some (get_field e "YEAR") := by
        rw [yearLookupExact, if_neg h1, if_pos h2]
      rw [yearTokenOf, hr, hl]
    · have hr : yearRawOf e = "0000" := by
        rw [yearRawOf, if_neg h1, if_neg h2]
      have hl : yearLookupExact e = none := by
        rw [yearLookupExact, if_neg h1, if_neg h2]
      rw [yearTokenOf, hr, hl]
      decide

/-! Lemmas about the collision-escalation loop. -/

theorem escalate_of_not_contains (u : Usage) (title key : String)
    (fuel n : Nat) (h : usageContains u key = false) :
    escalate u title fuel key n = some key := by
  cases fuel with
  | zero => simp [escalate, h]
  | succ m => simp [escalate, h]

theorem escalate_some_fresh (u : Usage) (title : String) :
    ∀ (fuel : Nat) (key : String) (n : Nat) (k : String),
      escalate u title fuel key n = some k → usageContains u k = false := by
  intro fuel
  induction fuel with
  | zero =>
    intro key n k h
    by_cases hc : usageContains u key = true
    · simp [escalate, hc] at h
    · simp [escalate, hc] at h
      rw [← h]
      exact Bool.eq_false_iff.mpr hc
  | succ m ih =>
    intro key n k h
    by_cases hc : usageContains u key = true
    · simp only [escalate, hc, if_true] at h
      exact ih _ _ _ h
    · simp [escalate, hc] at h
      rw [← h]
      exact Bool.eq_false_iff.mpr hc

theorem abbr_empty_of_no_content (title : String)
    (h : contentWordsOf title = []) (n : Nat) :
    extract_title_abbreviation title n = "" := by
  by_cases ht : title = ""
  · simp [extract_title_abbreviation, ht]
  · simp [extract_title_abbreviation, ht, h]

theorem escalate_stuck (u : Usage) (title key : String)
    (hc : usageContains u key = true)
    (habbr : ∀ n, extract_title_abbreviation title n = "") :
    ∀ fuel n, escalate u title fuel key n = none := by
  intro fuel
  induction fuel with
  | zero => intro n; simp [escalate, hc]
  | succ m ih =>
    intro n
    simp only [escalate, hc, if_true]
    rw [habbr n, String.append_empty]
    exact ih (2 * n)

theorem processEntry_some_inv (fuel : Nat) (st st1 : P1State) (e : EntryB)
    (h : processEntry fuel st e = some st1) :
    (canonLower e ∈ st.seen ∧ st1 = st) ∨
    (canonLower e ∉ st.seen ∧ ∃ key,
      escalate st.usage (canonOf e) fuel (baseKeyOf e) 2 = some key ∧
      st1 = { seen := st.seen ++ [canonLower e],
              usage := usagePush st.usage key ⟨canonOf e, e.key, e.start_line⟩,
              repl := replSet st.repl e.start_line
                        (formatEntry e key (canonOf e)) }) := by
  simp only [processEntry] at h
  by_cases hseen : pyLower (canonOf e) ∈ st.seen
  · rw [if_pos hseen] at h
    exact Or.inl ⟨hseen, (Option.some.inj h).symm⟩
  · rw [if_neg hseen] at h
    cases hesc : escalate st.usage (canonOf e) fuel (baseKeyOf e) 2 with
    | none => rw [hesc] at h; simp at h
    | some key =>
      rw [hesc] at h
      exact Or.inr ⟨hseen, key, rfl, (Option.some.inj h).symm⟩

theorem processEntry_hit (fuel : Nat) (st : P1State) (e : EntryB)
    (h : canonLower e ∈ st.seen) : processEntry fuel st e = some st := by
  simp only [processEntry]
  rw [if_pos (show pyLower (canonOf e) ∈ st.seen from h)]

theorem not_mem_keys_of_not_contains (u : Usage) (k : String)
    (h : usageContains u k = false) : k ∉ u.map Prod.fst := by
  intro hmem
  rcases List.mem_map.mp hmem with ⟨p, hp, hpk⟩
  have hc : usageContains u k = true :=
    List.any_eq_true.mpr ⟨p, hp, beq_iff_eq.mpr hpk⟩
  rw [h] at hc
  exact Bool.false_ne_true hc

theorem usagePush_fresh (u : Usage) (k : String) (i : Info)
    (h : usageContains u k = false) :
    usagePush u k i = u ++ [(k, [i])] := by
  rw [usagePush, if_neg (by rw [h]; exact Bool.false_ne_true)]

theorem pass1Aux_usage_inv (fuel : Nat) :
    ∀ (bs : List Block) (st st' : P1State),
      pass1Aux fuel st bs = some st' →
      (∀ p ∈ st.usage, p.2.length = 1) ∧ (st.usage.map Prod.fst).Nodup →
      (∀ p ∈ st'.usage, p.2.length = 1) ∧ (st'.usage.map Prod.fst).Nodup := by
  intro bs
  induction bs with
  | nil =>
    intro st st' h hinv
    simp only [pass1Aux] at h
    rw [← Option.some.inj h]
    exact hinv
  | cons b bs ih =>
    intro st st' h hinv
    cases b with
    | entry e =>
      simp only [pass1Aux] at h
      cases hpe : processEntry fuel st e with
      | none => rw [hpe] at h; simp at h
      | some st1 =>
        rw [hpe] at h
        rcases processEntry_some_inv fuel st st1 e hpe with ⟨_, hst⟩ | hmiss
        · exact ih st1 st' h (hst ▸ hinv)
        · rcases hmiss with ⟨_, key, hesc, hst⟩
          refine ih st1 st' h ?_
          have hfresh := escalate_some_fresh st.usage (canonOf e) fuel
            (baseKeyOf e) 2 key hesc
          rw [hst]
          simp only
          rw [usagePush_fresh st.usage key _ hfresh]
          constructor
          · intro p hp
            rcases List.mem_append.mp hp with h1 | h2
            · exact hinv.1 p h1
            · have : p = (key, [⟨canonOf e, e.key, e.start_line⟩]) := by
                simpa using h2
              rw [this]
              rfl
          · rw [List.map_append]
            refine List.Nodup.append hinv.2 (List.nodup_singleton key) ?_
            intro x hx hx2
            have : x = key := by simpa using hx2
            rw [this] at hx
            exact not_mem_keys_of_not_contains st.usage key hfresh hx
    | dupKey k l raw =>
      simp only [pass1Aux] at h
      exact ih st st' h hinv
    | other raw l =>
      simp only [pass1Aux] at h
      exact ih st st' h hinv

/-- C2: in every run that completes Pass 1, each entry of the key-usage index
holds exactly one provenance record, and the index's keys are pairwise
distinct — so no two kept records share a committed key. -/
theorem pass1_derived_keys_unique (fuel : Nat) (blocks : List Block)
    (st : P1State) (hrun : pass1 fuel blocks = some st) :
    (∀ p ∈ st.usage, p.2.length = 1) ∧ (st.usage.map Prod.fst).Nodup :=
  pass1Aux_usage_inv fuel blocks initState st hrun
    ⟨fun p hp => absurd hp (List.not_mem_nil p), List.nodup_nil⟩

/-- Witness for the key-uniqueness claim: a concrete three-record run with a
base-key collision, whose usage entries are checked to be singletons. -/
theorem pass1_derived_keys_unique_witness :
    (("smith2020", [(⟨"Deep Learning for X", "a1", 0⟩ : Info)]) :
        String × List Info).2.length = 1 ∧
    ((stW.usage.map Prod.fst).Nodup) :=
  ⟨(pass1_derived_keys_unique 5 wBlocks stW (by decide)).1 _ (by decide),
   (pass1_derived_keys_unique 5 wBlocks stW (by decide)).2⟩

/-- C3 counterexample: on two kept records with distinct stop-word-only titles
and colliding base keys, the escalation loop appends the empty abbreviation at
every `n` and never commits, so Pass 1 does not terminate for any fuel. -/
theorem pass1_stop_word_collision_diverges : pass1Diverges cStopBlocks := by
  intro fuel
  have h1 : processEntry fuel initState cStop1 = some stStop1 := by
    simp only [processEntry]
    rw [if_neg (show ¬(pyLower (canonOf cStop1) ∈ initState.seen) by decide)]
    rw [escalate_of_not_contains _ _ _ _ _ (by decide)]
    decide
  have h2 : processEntry fuel stStop1 cStop2 = none := by
    simp only [processEntry]
    rw [if_neg (show ¬(pyLower (canonOf cStop2) ∈ stStop1.seen) by decide)]
    rw [escalate_stuck stStop1.usage (canonOf cStop2) (baseKeyOf cStop2)
      (by decide)
      (fun n => abbr_empty_of_no_content (canonOf cStop2) (by decide) n)
      fuel 2]
  show pass1Aux fuel initState [Block.entry cStop1, Block.entry cStop2] = none
  simp only [pass1Aux, h1, h2]

/-- C3 amended: the escalation loop terminates and commits whenever its
candidate is not already in the usage index — in particular the base candidate
of any record processed while its base key is fresh, such as a lone record
whose title is only stop words and punctuation. When the base key collides
and every escalation step appends the empty abbreviation, the loop never
terminates (see the counterexample). -/
theorem escalate_terminates_when_fresh (u : Usage) (title key : String)
    (n fuel : Nat) (h : usageContains u key = false) :
    escalate u title fuel key n = some key :=
  escalate_of_not_contains u title key fuel n h

/-- Witness for the amended termination claim at scenario E: a stop-word-only
title yields the empty abbreviation, yet the derivation commits its base key
immediately, even with no fuel. -/
theorem escalate_terminates_when_fresh_witness :
    escalate [] (canonOf eScenE) 0 (baseKeyOf eScenE) 2 =
      some (baseKeyOf eScenE) ∧
    extract_title_abbreviation (canonOf eScenE) 2 = "" :=
  ⟨escalate_terminates_when_fresh [] (canonOf eScenE) (baseKeyOf eScenE) 2 0
     (by decide),
   by decide⟩

/-! Lemmas about entry formatting. -/

theorem rstripLast_append (x : String) :
    ∀ xs : List String, rstripLast (xs ++ [x]) = xs ++ [rstripCommas x] := by
  intro xs
  induction xs with
  | nil => rfl
  | cons a xs ih =>
    cases xs with
    | nil => rfl
    | cons b xs' =>
      show rstripLast (a :: ((b :: xs') ++ [x])) =
        a :: ((b :: xs') ++ [rstripCommas x])
      rw [show (b :: xs') ++ [x] = b :: (xs' ++ [x]) from rfl, rstripLast,
        show b :: (xs' ++ [x]) = (b :: xs') ++ [x] from rfl, ih]

theorem fieldLines_head (e : EntryB) (key title : String) :
    (fieldLines e key title).head? = some (openingLine e key title) := by
  simp only [fieldLines]
  cases hof : otherFields e with
  | nil => simp
  | cons f fs =>
    rw [List.map_cons]
    rw [if_pos (by simp)]
    rw [rstripLast]
    rfl

/-- C7 counterexample: a kept record whose only field is its title keeps the
trailing comma on the opening (and last) field line — the replacement the run
registers is `@article{unknown0000, title = {T},` followed by the closing
delimiter, with the comma still present. -/
theorem title_only_keeps_comma_cx :
    (pass1 1 [Block.entry eTitleOnly]).map (fun st => replLookup st.repl 3) =
      some (some "@article\x7bunknown0000, title = \x7bT\x7d,\n\x7d") ∧
    fieldLines eTitleOnly "unknown0000" "T" =
      ["@article\x7bunknown0000, title = \x7bT\x7d,"] ∧
    ("@article\x7bunknown0000, title = \x7bT\x7d,").data.getLast? =
      some ',' := by
  refine ⟨by decide, by decide, by decide⟩

/-! Lemmas about the replacement index. -/

theorem replLookup_cons (p : Nat × String) (r : Repl) (k : Nat) :
    replLookup (p :: r) k = if p.1 = k then some p.2 else replLookup r k := by
  by_cases h : p.1 = k
  · rw [if_pos h, replLookup,
      @List.find?_cons_of_pos _ (fun q => q.1 == k) p r (beq_iff_eq.mpr h)]
    rfl
  · rw [if_neg h, replLookup,
      @List.find?_cons_of_neg _ (fun q => q.1 == k) p r (by simpa using h)]
    rfl

theorem replLookup_map_upd (k : Nat) (v : String) (k' : Nat) :
    ∀ r : Repl,
      replLookup (r.map (fun p => if p.1 == k then (p.1, v) else p)) k' =
        if k' = k then (replLookup r k).map (fun _ => v)
        else replLookup r k' := by
  intro r
  induction r with
  | nil => by_cases hk : k' = k <;> simp [replLookup, hk]
  | cons p r ih =>
    have hfst : (if p.1 == k then (p.1, v) else p).1 = p.1 := by
      by_cases h : (p.1 == k) = true <;> simp [h]
    rw [List.map_cons, replLookup_cons, hfst]
    by_cases hp : p.1 = k'
    · rw [if_pos hp]
      by_cases hk : k' = k
      · have hpk : (p.1 == k) = true := beq_iff_eq.mpr (hp.trans hk)
        rw [if_pos hk,
          show (if p.1 == k then (p.1, v) else p).2 = v from by rw [if_pos hpk],
          replLookup_cons, if_pos (show p.1 = k from hp.trans hk)]
        rfl
      · have hpk : ¬((p.1 == k) = true) := by
          rw [beq_iff_eq]
          intro hcon
          exact hk (hp ▸ hcon)
        rw [if_neg hk,
          show (if p.1 == k then (p.1, v) else p).2 = p.2 from by
            rw [if_neg hpk],
          replLookup_cons, if_pos hp]
    · rw [if_neg hp, ih]
      by_cases hk : k' = k
      · rw [if_pos hk, if_pos hk, replLookup_cons]
        by_cases hpk : p.1 = k
        · exact absurd (hpk.trans hk.symm) hp
        · rw [if_neg hpk]
      · rw [if_neg hk, if_neg hk, replLookup_cons, if_neg hp]

theorem replLookup_append_single (k : Nat) (v : String) :
    ∀ r : Repl, r.any (fun p => p.1 == k) = false → ∀ k',
      replLookup (r ++ [(k, v)]) k' =
        if k' = k then some v else replLookup r k' := by
  intro r
  induction r with
  | nil =>
    intro _ k'
    by_cases hk : k' = k
    · rw [if_pos hk, List.nil_append, replLookup_cons, if_pos hk.symm]
    · rw [if_neg hk, List.nil_append, replLookup_cons,
        if_neg (fun h => hk h.symm)]
  | cons p r ih =>
    intro hany k'
    have hsplit : (p.1 == k) = false ∧ r.any (fun q => q.1 == k) = false := by
      rw [List.any_cons] at hany
      exact ⟨by revert hany; cases (p.1 == k) <;> simp,
        by revert hany; cases r.any (fun q => q.1 == k) <;> simp⟩
    rw [List.cons_append, replLookup_cons, replLookup_cons]
    by_cases hp : p.1 = k'
    · have hk : ¬(k' = k) := by
        intro hcon
        have hbe : (p.1 == k) = true := beq_iff_eq.mpr (hp.trans hcon)
        rw [hsplit.1] at hbe
        exact Bool.false_ne_true hbe
      rw [if_pos hp, if_neg hk, if_pos hp]
    · rw [if_neg hp, if_neg hp, ih hsplit.2 k']

theorem replLookup_replSet (r : Repl) (k : Nat) (v : String) (k' : Nat) :
    replLookup (replSet r k v) k' =
      if k' = k then some v else replLookup r k' := by
  rw [replSet]
  by_cases hany : r.any (fun p => p.1 == k) = true
  · rw [if_pos hany, replLookup_map_upd]
    by_cases hk : k' = k
    · rw [if_pos hk, if_pos hk]
      have hs : (List.find? (fun p => p.1 == k) r).isSome = true := by
        rcases List.any_eq_true.mp hany with ⟨p, hp, hpk⟩
        exact List.find?_isSome.mpr ⟨p, hp, hpk⟩
      rcases Option.isSome_iff_exists.mp hs with ⟨x, hx⟩
      rw [replLookup, hx]
      rfl
    · rw [if_neg hk, if_neg hk]
  · rw [if_neg hany,
      replLookup_append_single k v r (Bool.eq_false_iff.mpr hany) k']

/-! Structural lemmas about Pass 1. -/

theorem entriesOf_cons_entry (e : EntryB) (bs : List Block) :
    entriesOf (Block.entry e :: bs) = e :: entriesOf bs := by
  simp [entriesOf]

theorem entriesOf_cons_dup (k : String) (l : Nat) (raw : Option String)
    (bs : List Block) :
    entriesOf (Block.dupKey k l raw :: bs) = entriesOf bs := by
  simp [entriesOf]

theorem entriesOf_cons_other (raw : Option String) (l : Nat)
    (bs : List Block) :
    entriesOf (Block.other raw l :: bs) = entriesOf bs := by
  simp [entriesOf]

theorem pass1Aux_repl_mono (fuel : Nat) :
    ∀ (bs : List Block) (st st' : P1State) (k : Nat),
      pass1Aux fuel st bs = some st' →
      (replLookup st.repl k).isSome = true →
      (replLookup st'.repl k).isSome = true := by
  intro bs
  induction bs with
  | nil =>
    intro st st' k h hk
    simp only [pass1Aux] at h
    rw [← Option.some.inj h]
    exact hk
  | cons b bs ih =>
    intro st st' k h hk
    cases b with
    | entry e =>
      simp only [pass1Aux] at h
      cases hpe : processEntry fuel st e with
      | none => rw [hpe] at h; simp at h
      | some st1 =>
        rw [hpe] at h
        rcases processEntry_some_inv fuel st st1 e hpe with ⟨_, hst⟩ |
          ⟨_, key, _, hst⟩
        · exact ih st1 st' k h (hst ▸ hk)
        · refine ih st1 st' k h ?_
          rw [hst]
          simp only
          rw [replLookup_replSet]
          by_cases hke : k = e.start_line
          · rw [if_pos hke]; rfl
          · rw [if_neg hke]; exact hk
    | dupKey k0 l raw =>
      simp only [pass1Aux] at h
      exact ih st st' k h hk
    | other raw l =>
      simp only [pass1Aux] at h
      exact ih st st' k h hk

theorem pass1Aux_repl_new (fuel : Nat) :
    ∀ (bs : List Block) (st st' : P1State) (k : Nat),
      pass1Aux fuel st bs = some st' →
      (replLookup st'.repl k).isSome = true →
      (replLookup st.repl k).isSome = true ∨
        ∃ e ∈ entriesOf bs, e.start_line = k := by
  intro bs
  induction bs with
  | nil =>
    intro st st' k h hk
    simp only [pass1Aux] at h
    rw [Option.some.inj h]
    exact Or.inl hk
  | cons b bs ih =>
    intro st st' k h hk
    cases b with
    | entry e =>
      simp only [pass1Aux] at h
      cases hpe : processEntry fuel st e with
      | none => rw [hpe] at h; simp at h
      | some st1 =>
        rw [hpe] at h
        rcases ih st1 st' k h hk with h1 | ⟨e', he', hl⟩
        · rcases processEntry_some_inv fuel st st1 e hpe with ⟨_, hst⟩ |
            ⟨_, key, _, hst⟩
          · exact Or.inl (hst ▸ h1)
          · rw [hst] at h1
            simp only at h1
            rw [replLookup_replSet] at h1
            by_cases hke : k = e.start_line
            · refine Or.inr ⟨e, ?_, hke.symm⟩
              rw [entriesOf_cons_entry]
              exact List.mem_cons_self e _
            · rw [if_neg hke] at h1
              exact Or.inl h1
        · refine Or.inr ⟨e', ?_, hl⟩
          rw [entriesOf_cons_entry]
          exact List.mem_cons_of_mem e he'
    | dupKey k0 l raw =>
      simp only [pass1Aux] at h
      rcases ih st st' k h hk with h1 | ⟨e', he', hl⟩
      · exact Or.inl h1
      · refine Or.inr ⟨e', ?_, hl⟩
        rw [entriesOf_cons_dup]
        exact he'
    | other raw l =>
      simp only [pass1Aux] at h
      rcases ih st st' k h hk with h1 | ⟨e', he', hl⟩
      · exact Or.inl h1
      · refine Or.inr ⟨e', ?_, hl⟩
        rw [entriesOf_cons_other]
        exact he'

theorem pass1Aux_repl_value (fuel : Nat) :
    ∀ (bs : List Block) (st st' : P1State),
      pass1Aux fuel st bs = some st' →
      ∀ k s, replLookup st'.repl k = some s →
        replLookup st.repl k = some s ∨
        ∃ e, e ∈ entriesOf bs ∧ e.start_line = k ∧
          ∃ key, s = formatEntry e key (canonOf e) := by
  intro bs
  induction bs with
  | nil =>
    intro st st' h k s hk
    simp only [pass1Aux] at h
    rw [Option.some.inj h]
    exact Or.inl hk
  | cons b bs ih =>
    intro st st' h k s hk
    cases b with
    | entry e =>
      simp only [pass1Aux] at h
      cases hpe : processEntry fuel st e with
      | none => rw [hpe] at h; simp at h
      | some st1 =>
        rw [hpe] at h
        rcases ih st1 st' h k s hk with h1 | ⟨e', he', hl, key', hs⟩
        · rcases processEntry_some_inv fuel st st1 e hpe with ⟨_, hst⟩ |
            ⟨_, key, _, hst⟩
          · exact Or.inl (hst ▸ h1)
          · rw [hst] at h1
            simp only at h1
            rw [replLookup_replSet] at h1
            by_cases hke : k = e.start_line
            · rw [if_pos hke] at h1
              refine Or.inr ⟨e, ?_, hke.symm, key, (Option.some.inj h1).symm⟩
              rw [entriesOf_cons_entry]
              exact List.mem_cons_self e _
            · rw [if_neg hke] at h1
              exact Or.inl h1
        · refine Or.inr ⟨e', ?_, hl, key', hs⟩
          rw [entriesOf_cons_entry]
          exact List.mem_cons_of_mem e he'
    | dupKey k0 l raw =>
      simp only [pass1Aux] at h
      rcases ih st st' h k s hk with h1 | ⟨e', he', hl, key', hs⟩
      · exact Or.inl h1
      · refine Or.inr ⟨e', ?_, hl, key', hs⟩
        rw [entriesOf_cons_dup]
        exact he'
    | other raw l =>
      simp only [pass1Aux] at h
      rcases ih st st' h k s hk with h1 | ⟨e', he', hl, key', hs⟩
      · exact Or.inl h1
      · refine Or.inr ⟨e', ?_, hl, key', hs⟩
        rw [entriesOf_cons_other]
        exact he'

theorem pass1Aux_kept_iff (fuel : Nat) :
    ∀ (bs : List Block) (st st' : P1State),
      pass1Aux fuel st bs = some st' →
      ((entriesOf bs).map EntryB.start_line).Nodup →
      (∀ e ∈ entriesOf bs, (replLookup st.repl e.start_line).isSome = false) →
      ∀ l1 e l2, entriesOf bs = l1 ++ e :: l2 →
        ((replLookup st'.repl e.start_line).isSome = true ↔
          (canonLower e ∉ st.seen ∧ canonLower e ∉ l1.map canonLower)) := by
  intro bs
  induction bs with
  | nil =>
    intro st st' h hnd hfresh l1 e l2 hdec
    rw [show entriesOf ([] : List Block) = [] from rfl] at hdec
    cases l1 <;> simp at hdec
  | cons b bs ih =>
    intro st st' h hnd hfresh l1 e l2 hdec
    cases b with
    | dupKey k0 l0 raw =>
      rw [entriesOf_cons_dup] at hdec hnd hfresh
      simp only [pass1Aux] at h
      exact ih st st' h hnd hfresh l1 e l2 hdec
    | other raw l0 =>
      rw [entriesOf_cons_other] at hdec hnd hfresh
      simp only [pass1Aux] at h
      exact ih st st' h hnd hfresh l1 e l2 hdec
    | entry e0 =>
      rw [entriesOf_cons_entry] at hdec hnd hfresh
      simp only [pass1Aux] at h
      cases hpe : processEntry fuel st e0 with
      | none => rw [hpe] at h; simp at h
      | some st1 =>
        rw [hpe] at h
        have hnd' := hnd
        rw [List.map_cons, List.nodup_cons] at hnd'
        cases l1 with
        | nil =>
          rw [List.nil_append] at hdec
          injection hdec with he0 hbs
          subst he0
          simp only [List.map_nil, List.not_mem_nil, not_false_iff, and_true]
          rcases processEntry_some_inv fuel st st1 e0 hpe with ⟨hseen, hst⟩ |
            ⟨hseen, key, hesc, hst⟩
          · rw [hst] at h
            refine iff_of_false ?_ (fun hno => hno hseen)
            intro hk
            rcases pass1Aux_repl_new fuel bs st st' e0.start_line h hk with
              h1 | ⟨e', he', hl⟩
            · rw [hfresh e0 (List.mem_cons_self e0 _)] at h1
              exact Bool.false_ne_true h1
            · exact hnd'.1 (List.mem_map.mpr ⟨e', he', hl⟩)
          · refine iff_of_true ?_ hseen
            refine pass1Aux_repl_mono fuel bs st1 st' e0.start_line h ?_
            rw [hst]
            simp only
            rw [replLookup_replSet, if_pos rfl]
            rfl
        | cons e1 l1' =>
          rw [List.cons_append] at hdec
          injection hdec with he01 hbs
          subst he01
          rcases processEntry_some_inv fuel st st1 e0 hpe with ⟨hseen, hst⟩ |
            ⟨hseen, key, hesc, hst⟩
          · rw [hst] at h
            have hfresh' : ∀ x ∈ entriesOf bs,
                (replLookup st.repl x.start_line).isSome = false :=
              fun x hx => hfresh x (List.mem_cons_of_mem e0 hx)
            have hiff := ih st st' h hnd'.2 hfresh' l1' e l2 hbs
            rw [hiff, List.map_cons]
            constructor
            · rintro ⟨ha, hb⟩
              refine ⟨ha, ?_⟩
              intro hc
              rcases List.mem_cons.mp hc with hc1 | hc2
              · exact ha (by rw [hc1]; exact hseen)
              · exact hb hc2
            · rintro ⟨ha, hb⟩
              exact ⟨ha, fun hc => hb (List.mem_cons_of_mem _ hc)⟩
          · have hline : e0.start_line ∉ (entriesOf bs).map EntryB.start_line :=
              hnd'.1
            have hfresh' : ∀ x ∈ entriesOf bs,
                (replLookup st1.repl x.start_line).isSome = false := by
              intro x hx
              rw [hst]
              simp only
              rw [replLookup_replSet, if_neg ?_]
              · exact hfresh x (List.mem_cons_of_mem e0 hx)
              · intro hcon
                exact hline (List.mem_map.mpr ⟨x, hx, hcon⟩)
            have hiff := ih st1 st' h hnd'.2 hfresh' l1' e l2 hbs
            rw [hiff, List.map_cons]
            have hseen1 : ∀ t, t ∈ st1.seen ↔
                t ∈ st.seen ∨ t = canonLower e0 := by
              intro t
              rw [hst]
              simp only
              rw [List.mem_append, List.mem_singleton]
            constructor
            · rintro ⟨ha, hb⟩
              rw [hseen1] at ha
              push_neg at ha
              refine ⟨ha.1, ?_⟩
              intro hc
              rcases List.mem_cons.mp hc with hc1 | hc2
              · exact ha.2 hc1
              · exact hb hc2
            · rintro ⟨ha, hb⟩
              constructor
              · rw [hseen1]
                push_neg
                exact ⟨ha, fun hcon =>
                  hb (by rw [hcon]; exact List.mem_cons_self _ _)⟩
              · exact fun hc => hb (List.mem_cons_of_mem _ hc)

theorem pyLower_eq_empty (s : String) : pyLower s = "" ↔ s = "" := by
  constructor
  · intro h
    have hd := congrArg String.data h
    simp only [pyLower] at hd
    exact String.ext (List.map_eq_nil_iff.mp hd)
  · intro h
    rw [h]
    rfl

theorem openingLine_empty_title (e : EntryB) (key : String) :
    openingLine e key "" =
      "@" ++ e.entry_type ++ "\x7b" ++ key ++ ", title = \x7b\x7d," := by
  rw [openingLine, String.append_empty, String.append_assoc,
    show (", title = \x7b" : String) ++ "\x7d," = ", title = \x7b\x7d," from
      by decide]

theorem pass2_append (r : Repl) :
    ∀ l1 l2 : List Block, pass2 r (l1 ++ l2) = pass2 r l1 ++ pass2 r l2 := by
  intro l1 l2
  induction l1 with
  | nil => rfl
  | cons b l1 ih =>
    rw [List.cons_append, pass2, pass2, ih, String.append_assoc]

/-- C1: after any completed Pass 1 on records with pairwise distinct source
lines, a record is kept (has a registered replacement) exactly when no earlier
record has the same lowercased canonical title; a later record with an equal
canonical title is skipped and contributes no Pass-2 output, while a kept
record contributes its replacement followed by a line break. -/
theorem pass1_title_dedup (fuel : Nat) (blocks : List Block) (st : P1State)
    (hrun : pass1 fuel blocks = some st)
    (hnd : ((entriesOf blocks).map EntryB.start_line).Nodup) :
    ∀ l1 e l2, entriesOf blocks = l1 ++ e :: l2 →
      ((replLookup st.repl e.start_line).isSome = true ↔
        canonLower e ∉ l1.map canonLower) ∧
      (canonLower e ∈ l1.map canonLower →
        emitBlock st.repl (Block.entry e) = "") ∧
      (canonLower e ∉ l1.map canonLower →
        ∃ s, replLookup st.repl e.start_line = some s ∧
          emitBlock st.repl (Block.entry e) = s ++ "\n") := by
  intro l1 e l2 hdec
  have hk := pass1Aux_kept_iff fuel blocks initState st hrun hnd
    (fun e' _ => rfl) l1 e l2 hdec
  have hk' : (replLookup st.repl e.start_line).isSome = true ↔
      canonLower e ∉ l1.map canonLower := by
    rw [hk]
    exact ⟨fun h => h.2, fun h => ⟨List.not_mem_nil _, h⟩⟩
  refine ⟨hk', ?_, ?_⟩
  · intro hmem
    have hfalse : ¬((replLookup st.repl e.start_line).isSome = true) :=
      fun hx => (hk'.mp hx) hmem
    have hnone := Option.not_isSome_iff_eq_none.mp hfalse
    simp [emitBlock, hnone]
  · intro hnm
    rcases Option.isSome_iff_exists.mp (hk'.mpr hnm) with ⟨s, hs⟩
    exact ⟨s, hs, by simp [emitBlock, hs]⟩

/-- Witness for the dedup claim: on the concrete three-record input, the
case-insensitively duplicated title is dropped with no output line, and the
distinct-titled records are kept with output lines. -/
theorem pass1_title_dedup_witness :
    replLookup stW.repl 5 = none ∧
    emitBlock stW.repl (Block.entry wB) = "" ∧
    emitBlock stW.repl (Block.entry wC) =
      "@article\x7bsmith2020dd, title = \x7bDeep Diving\x7d,\n  author = \x7bSmith, A.\x7d,\n  year = \x7b2020\x7d\n\x7d" ++
        "\n" := by
  have h1 := pass1_title_dedup 5 wBlocks stW (by decide) (by decide)
    [wA] wB [wC] (by decide)
  have h2 := pass1_title_dedup 5 wBlocks stW (by decide) (by decide)
    [wA, wB] wC [] (by decide)
  refine ⟨?_, h1.2.1 (by decide), ?_⟩
  · exact Option.not_isSome_iff_eq_none.mp
      (fun hx => (h1.1.mp hx) (by decide))
  · rcases h2.2.2 (by decide) with ⟨s, hs, he⟩
    have hlit : replLookup stW.repl wC.start_line =
        some "@article\x7bsmith2020dd, title = \x7bDeep Diving\x7d,\n  author = \x7bSmith, A.\x7d,\n  year = \x7b2020\x7d\n\x7d" := by
      decide
    rw [hs] at hlit
    rw [he, Option.some.inj hlit]

/-- C7 amended: every replacement registered by Pass 1 is the formatted text
of its record at its committed key and canonical title; the formatted text is
the field-line list joined by line breaks with a closing delimiter line; the
opening line carries entry type, derived key and the title field; every
non-title field gets its own indented line in original order with the trailing
comma stripped from the last of them; and when the title is the only field the
opening line is the whole field-line list, with its trailing comma kept. -/
theorem formatEntry_shape (e : EntryB) (key title : String) :
    formatEntry e key title =
      String.intercalate "\n" (fieldLines e key title ++ [String.mk [rbrace]]) ∧
    (fieldLines e key title).head? = some (openingLine e key title) ∧
    (otherFields e = [] → fieldLines e key title = [openingLine e key title]) ∧
    (∀ fs f, otherFields e = fs ++ [f] →
      fieldLines e key title =
        openingLine e key title :: fs.map fieldLineOf ++
          [rstripCommas (fieldLineOf f)]) ∧
    (∀ (fuel : Nat) (blocks : List Block) (st : P1State) (k : Nat)
        (s : String), pass1 fuel blocks = some st →
      replLookup st.repl k = some s →
      ∃ e' key', e' ∈ entriesOf blocks ∧ e'.start_line = k ∧
        s = formatEntry e' key' (canonOf e')) := by
  refine ⟨rfl, fieldLines_head e key title, ?_, ?_, ?_⟩
  · intro h
    simp [fieldLines, h]
  · intro fs f h
    simp only [fieldLines, h, List.map_append, List.map_cons, List.map_nil]
    rw [if_pos (by simp)]
    rw [show openingLine e key title ::
        (fs.map fieldLineOf ++ [fieldLineOf f]) =
        (openingLine e key title :: fs.map fieldLineOf) ++ [fieldLineOf f]
      from by simp, rstripLast_append]
  · intro fuel blocks st k s hrun hs
    rcases pass1Aux_repl_value fuel blocks initState st hrun k s hs with
      h1 | ⟨e', he', hl, key', hval⟩
    · exact absurd h1 (by simp [initState, replLookup])
    · exact ⟨e', key', he', hl, hval⟩

/-- Witness for the formatting claim on a record with two non-title fields. -/
theorem formatEntry_shape_witness :
    fieldLines wA "smith2020" "Deep Learning for X" =
      openingLine wA "smith2020" "Deep Learning for X" ::
        List.map fieldLineOf [(⟨"author", "Smith, J."⟩ : Field)] ++
        [rstripCommas (fieldLineOf (⟨"year", "2020"⟩ : Field))] :=
  (formatEntry_shape wA "smith2020" "Deep Learning for X").2.2.2.1
    [⟨"author", "Smith, J."⟩] ⟨"year", "2020"⟩ (by decide)

/-- C10: all records whose canonical title is empty (title field missing under
the exact lookup, or title normalizing to nothing) deduplicate together: after
any completed Pass 1 with distinct source lines, every empty-titled record
after the first is dropped, and the first — when no earlier record has an
empty canonical title — is kept with a replacement whose opening line shows an
empty title field. -/
theorem pass1_empty_title_dedup (fuel : Nat) (blocks : List Block)
    (st : P1State) (hrun : pass1 fuel blocks = some st)
    (hnd : ((entriesOf blocks).map EntryB.start_line).Nodup) :
    (∀ l1 e l2 e' l3, entriesOf blocks = l1 ++ e :: (l2 ++ e' :: l3) →
      canonOf e = "" → canonOf e' = "" →
      replLookup st.repl e'.start_line = none) ∧
    (∀ l1 e l2, entriesOf blocks = l1 ++ e :: l2 → canonOf e = "" →
      (∀ x ∈ l1, canonOf x ≠ "") →
      ∃ key s, replLookup st.repl e.start_line = some s ∧
        s = formatEntry e key "" ∧
        (fieldLines e key "").head? =
          some ("@" ++ e.entry_type ++ "\x7b" ++ key ++
            ", title = \x7b\x7d,")) := by
  constructor
  · intro l1 e l2 e' l3 hdec hce hce'
    have hdec' : entriesOf blocks = (l1 ++ e :: l2) ++ e' :: l3 := by
      rw [hdec]
      simp
    have hk := pass1Aux_kept_iff fuel blocks initState st hrun hnd
      (fun x _ => rfl) (l1 ++ e :: l2) e' l3 hdec'
    refine Option.not_isSome_iff_eq_none.mp (fun hx => ?_)
    have hmem : canonLower e' ∈ (l1 ++ e :: l2).map canonLower := by
      rw [show canonLower e' = "" from by
        rw [canonLower, hce']; rfl]
      refine List.mem_map.mpr ⟨e, ?_, by rw [canonLower, hce]; rfl⟩
      exact List.mem_append.mpr (Or.inr (List.mem_cons_self e l2))
    exact ((hk.mp hx).2) hmem
  · intro l1 e l2 hdec hce hne
    have hk := pass1Aux_kept_iff fuel blocks initState st hrun hnd
      (fun x _ => rfl) l1 e l2 hdec
    have hkept : (replLookup st.repl e.start_line).isSome = true := by
      rw [hk]
      refine ⟨List.not_mem_nil _, ?_⟩
      intro hmem
      rcases List.mem_map.mp hmem with ⟨x, hx, hcl⟩
      have hcx : canonOf x = "" := by
        have : pyLower (canonOf x) = "" := by
          rw [show pyLower (canonOf x) = canonLower x from rfl, hcl,
            canonLower, hce]
          rfl
        exact (pyLower_eq_empty _).mp this
      exact hne x hx hcx
    rcases Option.isSome_iff_exists.mp hkept with ⟨s, hs⟩
    rcases pass1Aux_repl_value fuel blocks initState st hrun e.start_line s hs
      with h1 | ⟨e'', he'', hl, key, hval⟩
    · exact absurd h1 (by simp [initState, replLookup])
    · have hmem_e : e ∈ entriesOf blocks := by
        rw [hdec]
        exact List.mem_append.mpr (Or.inr (List.mem_cons_self e l2))
      have hee : e'' = e :=
        List.inj_on_of_nodup_map hnd he'' hmem_e hl
      refine ⟨key, s, hs, ?_, ?_⟩
      · rw [hval, hee, hce]
      · rw [fieldLines_head, openingLine_empty_title]

/-- Witness for the empty-title dedup claim: on two concrete title-less
records, the second is dropped. -/
theorem pass1_empty_title_dedup_witness :
    replLookup stNoT.repl 4 = none :=
  (pass1_empty_title_dedup 1 noTBlocks stNoT (by decide) (by decide)).1
    [] eNoT1 [] eNoT2 [] (by decide) (by decide) (by decide)

/-- C9: Pass 2 emits every non-record block's raw text unchanged, in its
original relative position, appending a line break only when the raw text
lacks one, and the emitted chunk always ends with a line break. -/
theorem pass2_other_block_preserved (r : Repl) (l1 l2 : List Block)
    (raw : String) (line : Nat) :
    pass2 r (l1 ++ Block.other (some raw) line :: l2) =
      pass2 r l1 ++ (raw ++ (if endsWithNL raw then "" else "\n")) ++
        pass2 r l2 ∧
    (raw ++ (if endsWithNL raw then "" else "\n")).data.getLast? =
      some '\n' := by
  constructor
  · rw [pass2_append,
      show pass2 r (Block.other (some raw) line :: l2) =
        emitRaw (some raw) ++ pass2 r l2 from rfl,
      show emitRaw (some raw) =
        raw ++ (if endsWithNL raw then "" else "\n") from rfl,
      ← String.append_assoc]
  · by_cases h : endsWithNL raw = true
    · rw [if_pos h, String.append_empty]
      have h' := h
      rw [endsWithNL] at h'
      simpa using h'
    · rw [if_neg h, String.data_append,
        show ("\n" : String).data = ['\n'] from rfl]
      exact List.getLast?_concat _

/-- C6: when the parsed sequence carries duplicate-identifier signal blocks,
the run reports every offender with its zero-based line plus one, exits with
status 1, and produces no output — before Pass 1 ever runs, for any fuel. -/
theorem dup_check_fatal (fuel : Nat) (blocks : List Block)
    (h : duplicateBlocks blocks ≠ []) :
    mainOutcome fuel blocks =
      some (Outcome.fatalDup
        ((duplicateBlocks blocks).map (fun p => (p.1, p.2 + 1)))) ∧
    (∀ o, mainOutcome fuel blocks = some o → exitCode o = 1) ∧
    (∀ out n, mainOutcome fuel blocks ≠ some (Outcome.ok out n)) := by
  have hne : (duplicateBlocks blocks).isEmpty = false := by
    cases hd : duplicateBlocks blocks with
    | nil => exact absurd hd h
    | cons p l => rfl
  have hmain : mainOutcome fuel blocks =
      some (Outcome.fatalDup
        ((duplicateBlocks blocks).map (fun p => (p.1, p.2 + 1)))) := by
    simp only [mainOutcome]
    rw [if_neg (by rw [hne]; exact Bool.false_ne_true)]
  refine ⟨hmain, ?_, ?_⟩
  · intro o ho
    rw [hmain] at ho
    rw [← Option.some.inj ho]
    rfl
  · intro out n hcon
    rw [hmain] at hcon
    exact Outcome.noConfusion (Option.some.inj hcon)

/-- Witness for the fatal-duplicate claim on a concrete input with two
duplicate-identifier signals at lines 7 and 12. -/
theorem dup_check_fatal_witness :
    mainOutcome 0 dupBlocksEx =
      some (Outcome.fatalDup [("abc123", 8), ("abc123", 13)]) := by
  rw [(dup_check_fatal 0 dupBlocksEx (by decide)).1]
  decide

end FormatBib
